import Mathlib

/-
Verification of the three concurrency primitives of the repository:
the fine-grained lock-coupling sorted list set (`list_set/fine_grained.rs`),
the memoizing cache (`hello_server/cache.rs`) and the worker thread pool
(`hello_server/thread_pool.rs`).

The linked list is embedded with an explicit heap: addresses are natural
numbers, the heap is a list of `Option LNode` (an entry is `none` once the
node's memory has been reclaimed, and reading it then fails), and every
operation that the Rust code performs through raw pointers is modelled as a
fallible state transformation returning `Option` — a `none` result marks an
execution that dereferences a null or freed pointer (undefined behaviour in
the source).  Traversals are written with explicit fuel, as the source
recursion terminates only by virtue of the list-shape invariant.
-/

namespace FG

/-- A list node, as in `struct Node<T> { data: T, next: Mutex<*mut Node<T>> }`;
the lock itself carries no data relevant to sequential state, so the model
keeps the protected pointer.  `next = none` models the null pointer. -/
structure LNode where
  data : Int
  next : Option Nat
  deriving DecidableEq, Repr

/-- The heap: address `a` holds `heap[a]`.  `some none` marks reclaimed
memory, out-of-range addresses were never allocated. -/
abbrev Heap := List (Option LNode)

/-- `FineGrainedListSet<T> { head: Mutex<*mut Node<T>> }` together with the
heap the raw pointers live in. -/
structure LSet where
  head : Option Nat
  heap : Heap
  deriving DecidableEq, Repr

/-- `FineGrainedListSet::new` : empty list, null head, nothing allocated. -/
def emptyLSet : LSet := ⟨none, []⟩

/-- Dereference a node pointer; fails on reclaimed or unallocated memory. -/
def readNode (h : Heap) (a : Nat) : Option LNode := (h[a]?).bind id

/-- A `Cursor` designates the slot it has locked: the head field (`none`) or
the `next` field of the node at address `a` (`some a`). -/
abbrev Slot := Option Nat

/-- Read the pointer currently stored in a slot (`*cursor.0`). -/
def readSlot (s : LSet) : Slot → Option (Option Nat)
  | none => some s.head
  | some a => (readNode s.heap a).map (·.next)

/-- Write a pointer into a slot (`*cursor.0 = p`). -/
def writeSlot (s : LSet) (slot : Slot) (p : Option Nat) : Option LSet :=
  match slot with
  | none => some { s with head := p }
  | some a =>
    (readNode s.heap a).map fun n =>
      { s with heap := s.heap.set a (some { n with next := p }) }

/-- Overwrite the node stored at address `a`. -/
def writeNode (s : LSet) (a : Nat) (n : LNode) : LSet :=
  { s with heap := s.heap.set a (some n) }

/-- Reclaim the node at address `a` (`Box::from_raw`). -/
def freeNode (s : LSet) (a : Nat) : LSet :=
  { s with heap := s.heap.set a none }

/-- `Node::new` : allocate a fresh node, returning the new state and its
address (fresh addresses are appended, so they are never reused). -/
def allocNode (s : LSet) (n : LNode) : LSet × Nat :=
  (⟨s.head, s.heap ++ [some n]⟩, s.heap.length)

/-- `Cursor::find` : starting from `slot`, stop when the pointed-at node
holds `key` (found) or a larger value or null (not found), otherwise advance
into the node's own `next` slot.  Fuel bounds the recursion; a fuel-exhausted
or dangling-pointer run returns `none`. -/
def findAux (s : LSet) (key : Int) : Nat → Slot → Option (Bool × Slot)
  | 0, _ => none
  | fuel+1, slot =>
    match readSlot s slot with
    | none => none
    | some none => some (false, slot)
    | some (some a) =>
      match readNode s.heap a with
      | none => none
      | some node =>
        if node.data = key then some (true, slot)
        else if key < node.data then some (false, slot)
        else findAux s key fuel (some a)

/-- `FineGrainedListSet::find` : run the cursor from the head slot. -/
def findSet (s : LSet) (key : Int) : Option (Bool × Slot) :=
  findAux s key (s.heap.length + 1) none

/-- `contains`. -/
def containsSet (s : LSet) (key : Int) : Option Bool :=
  (findSet s key).map (·.1)

/-- `insert` : on miss, allocate `Node::new(key, *lock)` and write it into
the cursor's slot. -/
def insertSet (s : LSet) (key : Int) : Option (Bool × LSet) :=
  match findSet s key with
  | none => none
  | some (true, _) => some (false, s)
  | some (false, slot) =>
    match readSlot s slot with
    | none => none
    | some nxt =>
      let alloc := allocNode s ⟨key, nxt⟩
      match writeSlot alloc.1 slot (some alloc.2) with
      | none => none
      | some s2 => some (true, s2)

/-- `remove`, exactly as the source performs it: locate the target through
the cursor; `lock.as_mut()` (null target skips the body and still returns
`true`); `ptr::replace(&mut *node.next.lock().unwrap(), ptr::null_mut())`
takes the *target's successor pointer* as `to_remove` and nulls the target's
`next`; `(*to_remove).next.lock().unwrap()` dereferences that successor
pointer (undefined behaviour — `none` — when it is null); the successor's own
`next` is written into the cursor's slot; finally `Box::from_raw(to_remove)`
reclaims the *successor* node. -/
def removeSet (s : LSet) (key : Int) : Option (Bool × LSet) :=
  match findSet s key with
  | none => none
  | some (false, _) => some (false, s)
  | some (true, slot) =>
    match readSlot s slot with
    | none => none
    | some none => some (true, s)
    | some (some t) =>
      match readNode s.heap t with
      | none => none
      | some tgt =>
        let toRemove := tgt.next
        let s1 := writeNode s t { tgt with next := none }
        match toRemove with
        | none => none
        | some r =>
          match readNode s1.heap r with
          | none => none
          | some rn =>
            match writeSlot s1 slot rn.next with
            | none => none
            | some s2 => some (true, freeNode s2 r)

/-- `Iter::next`, iterated to the end: collect `data` of each node reached
from pointer `p`, following `next` pointers. -/
def iterAux (h : Heap) : Nat → Option Nat → Option (List Int)
  | _, none => some []
  | 0, some _ => none
  | fuel+1, some a =>
    match readNode h a with
    | none => none
    | some n => (iterAux h fuel n.next).map (n.data :: ·)

/-- `iter().collect()` : the full ascending traversal from the head slot. -/
def iterSet (s : LSet) : Option (List Int) :=
  iterAux s.heap (s.heap.length + 1) s.head

/-- `impl Drop for FineGrainedListSet` is literally `for _ in self.iter() {}`:
it walks the chain and reclaims nothing, so the state (in particular every
allocated node) is returned unchanged. -/
def dropSet (s : LSet) : Option LSet :=
  (iterSet s).map fun _ => s

/-- An `insert` or `remove` call. -/
inductive SetOp where
  | ins (k : Int)
  | rem (k : Int)
  deriving DecidableEq, Repr

/-- Run one operation for its state effect. -/
def runOp (s : LSet) : SetOp → Option LSet
  | .ins k => (insertSet s k).map (·.2)
  | .rem k => (removeSet s k).map (·.2)

/-- Run a sequence of operations; `none` as soon as one execution is
undefined. -/
def runOps : List SetOp → LSet → Option LSet
  | [], s => some s
  | op :: rest, s =>
    match runOp s op with
    | none => none
    | some s1 => runOps rest s1

end FG

namespace FG

/-- The state produced by `insert(1); insert(2); insert(3)` on a fresh set:
nodes 1 → 2 → 3 at addresses 0, 1, 2. -/
def demo123 : LSet :=
  ⟨some 0, [some ⟨1, some 1⟩, some ⟨2, some 2⟩, some ⟨3, none⟩]⟩

/-- The state produced by `insert(1)` on a fresh set. -/
def demo1 : LSet := ⟨some 0, [some ⟨1, none⟩]⟩

end FG

namespace FG

/-- Addresses visited by a chain description. -/
def addrsOf (l : List (Nat × Int)) : List Nat := l.map Prod.fst

/-- Values carried by a chain description. -/
def valsOf (l : List (Nat × Int)) : List Int := l.map Prod.snd

/-- A chain segment: starting at pointer `p`, the heap links through exactly
the nodes of `l` (address/value pairs, in order) and then holds pointer `q`. -/
inductive ChainSeg (h : Heap) : Option Nat → List (Nat × Int) → Option Nat → Prop
  | nil (p : Option Nat) : ChainSeg h p [] p
  | cons {a : Nat} {v : Int} {nxt : Option Nat} {l : List (Nat × Int)} {q : Option Nat}
      (hread : readNode h a = some ⟨v, nxt⟩) (htail : ChainSeg h nxt l q) :
      ChainSeg h (some a) ((a, v) :: l) q

theorem ChainSeg.append {h : Heap} {p q r : Option Nat} {l1 l2 : List (Nat × Int)}
    (h1 : ChainSeg h p l1 q) (h2 : ChainSeg h q l2 r) : ChainSeg h p (l1 ++ l2) r := by
  induction h1 with
  | nil => simpa using h2
  | cons hread _ ih => exact ChainSeg.cons hread (ih h2)

theorem ChainSeg.split {h : Heap} {p r : Option Nat} {l1 l2 : List (Nat × Int)}
    (hc : ChainSeg h p (l1 ++ l2) r) : ∃ q, ChainSeg h p l1 q ∧ ChainSeg h q l2 r := by
  induction l1 generalizing p with
  | nil => exact ⟨p, ChainSeg.nil p, hc⟩
  | cons x l1t ih =>
    cases hc with
    | cons hread htail =>
      obtain ⟨q, hq1, hq2⟩ := ih htail
      exact ⟨q, ChainSeg.cons hread hq1, hq2⟩

theorem ChainSeg.nil_inv {h : Heap} {p q : Option Nat} (hc : ChainSeg h p [] q) : p = q := by
  cases hc; rfl

theorem ChainSeg.none_inv {h : Heap} {l : List (Nat × Int)} {q : Option Nat}
    (hc : ChainSeg h none l q) : l = [] ∧ q = none := by
  cases hc; exact ⟨rfl, rfl⟩

/-- A chain whose start pointer and heap agree is fully determined once it
runs to the null terminator. -/
theorem ChainSeg.unique_to_none {h : Heap} {l1 : List (Nat × Int)} :
    ∀ {p : Option Nat} {l2 : List (Nat × Int)},
      ChainSeg h p l1 none → ChainSeg h p l2 none → l1 = l2 := by
  induction l1 with
  | nil =>
    intro p l2 h1 h2
    have hp := h1.nil_inv
    subst hp
    exact (h2.none_inv.1).symm
  | cons x l1t ih =>
    intro p l2 h1 h2
    cases h1 with
    | cons hread htail =>
      cases h2 with
      | cons hread2 htail2 =>
        rw [hread] at hread2
        injection hread2 with hnode
        injection hnode with hd hn
        subst hd
        rw [← hn] at htail2
        rw [ih htail htail2]

/-- Reading the nodes of a chain succeeds, so every chain address is inside
the heap. -/
theorem ChainSeg.addr_lt {h : Heap} {p q : Option Nat} {l : List (Nat × Int)}
    (hc : ChainSeg h p l q) : ∀ a ∈ addrsOf l, a < h.length := by
  induction hc with
  | nil => intro a ha; simp [addrsOf] at ha
  | cons hread htail ih =>
    intro b hb
    simp only [addrsOf, List.map_cons, List.mem_cons] at hb
    rcases hb with hb | hb
    · subst hb
      by_contra hge
      have : (h[b]?) = none := List.getElem?_eq_none (le_of_not_lt hge)
      simp [readNode, this] at hread
    · exact ih b hb

/-- A chain that reaches the null terminator never revisits an address. -/
theorem ChainSeg.nodup_to_none {h : Heap} {l : List (Nat × Int)} :
    ∀ {p : Option Nat}, ChainSeg h p l none → (addrsOf l).Nodup := by
  induction l with
  | nil => intro p _; simp [addrsOf]
  | cons x lt ih =>
    intro p hc
    obtain ⟨a, v⟩ := x
    cases hc with
    | cons hread htail =>
      simp only [addrsOf, List.map_cons, List.nodup_cons]
      refine ⟨?_, ih htail⟩
      intro hmem
      simp only [List.mem_map] at hmem
      obtain ⟨⟨b, w⟩, hbmem, hba⟩ := hmem
      simp only at hba
      subst hba
      obtain ⟨l1, l2, hsplit⟩ := List.append_of_mem hbmem
      subst hsplit
      obtain ⟨q, hq1, hq2⟩ := ChainSeg.split htail
      cases hq2 with
      | cons hreadA htailA =>
        rw [hread] at hreadA
        injection hreadA with hnode
        injection hnode with hd hn
        subst hd
        rw [← hn] at htailA
        have hlen := congrArg List.length (ChainSeg.unique_to_none htail htailA)
        rw [List.length_append, List.length_cons] at hlen
        omega

/-- Heap modifications away from a chain's addresses preserve it. -/
theorem ChainSeg.mono {h h2 : Heap} {p q : Option Nat} {l : List (Nat × Int)}
    (hc : ChainSeg h p l q) (hagree : ∀ a ∈ addrsOf l, readNode h2 a = readNode h a) :
    ChainSeg h2 p l q := by
  induction hc with
  | nil => exact ChainSeg.nil _
  | cons hread htail ih =>
    rename_i a v nxt l' _
    refine ChainSeg.cons ?_ (ih ?_)
    · rw [hagree a (by simp [addrsOf])]
      exact hread
    · intro b hb
      exact hagree b (by simp [addrsOf] at hb ⊢; exact Or.inr hb)

/-- Setting an address outside a chain preserves it. -/
theorem ChainSeg.set_ne {h : Heap} {p q : Option Nat} {l : List (Nat × Int)}
    {a : Nat} {x : Option LNode}
    (hc : ChainSeg h p l q) (ha : a ∉ addrsOf l) : ChainSeg (h.set a x) p l q := by
  refine hc.mono ?_
  intro b hb
  have hne : a ≠ b := fun he => ha (he ▸ hb)
  simp [readNode, List.getElem?_set_ne hne]

/-- Growing the heap on the right preserves every chain. -/
theorem ChainSeg.grow {h : Heap} {p q : Option Nat} {l : List (Nat × Int)}
    {x : Option LNode} (hc : ChainSeg h p l q) : ChainSeg (h ++ [x]) p l q := by
  refine hc.mono ?_
  intro b hb
  have hlt : b < h.length := hc.addr_lt b hb
  simp [readNode, List.getElem?_append_left hlt]

end FG

namespace FG


/-- The slot the cursor ends on after walking past the nodes of `l1`,
having started on `slot`: the starting slot when `l1` is empty, otherwise
the `next` field of the last node walked past. -/
def slotAfter (slot : Slot) : List (Nat × Int) → Slot
  | [] => slot
  | x :: l1 => slotAfter (some x.1) l1

theorem slotAfter_concat (slot : Slot) (l1 : List (Nat × Int)) (z : Nat × Int) :
    slotAfter slot (l1 ++ [z]) = some z.1 := by
  induction l1 generalizing slot with
  | nil => rfl
  | cons x l1t ih => exact ih (some x.1)

/-- Specification of `Cursor::find`, relative to a sorted chain hanging off
the starting slot: it returns `some`, splits the chain into a strict prefix
of values below the key and the remainder, lands on the slot just after the
prefix, and reports `found` exactly when the remainder starts with the key. -/
theorem findAux_spec (s : LSet) (key : Int) :
    ∀ (fuel : Nat) (l : List (Nat × Int)) (slot : Slot) (p : Option Nat),
      readSlot s slot = some p →
      ChainSeg s.heap p l none →
      (valsOf l).Pairwise (· < ·) →
      l.length < fuel →
      ∃ found l1 l2 p2,
        findAux s key fuel slot = some (found, slotAfter slot l1) ∧
        l = l1 ++ l2 ∧
        readSlot s (slotAfter slot l1) = some p2 ∧
        ChainSeg s.heap p l1 p2 ∧
        ChainSeg s.heap p2 l2 none ∧
        (∀ v ∈ valsOf l1, v < key) ∧
        (found = true → ∃ t l2t, l2 = (t, key) :: l2t) ∧
        (found = false → ∀ v ∈ valsOf l2, key < v) := by
  intro fuel
  induction fuel with
  | zero => intro l slot p _ _ _ hlen; omega
  | succ fuel ih =>
    intro l slot p hslot hchain hsorted hlen
    cases hchain with
    | nil =>
      refine ⟨false, [], [], none, ?_, by simp, ?_, ChainSeg.nil _, ChainSeg.nil _,
        by simp [valsOf], by simp, by simp [valsOf]⟩
      · simp [findAux, hslot, slotAfter]
      · simpa [slotAfter] using hslot
    | cons hread htail =>
      rename_i a v nxt lt
      have hpair : (v :: valsOf lt).Pairwise (· < ·) := hsorted
      by_cases hveq : v = key
      · subst hveq
        refine ⟨true, [], (a, v) :: lt, some a, ?_, by simp, ?_, ChainSeg.nil _,
          ChainSeg.cons hread htail, by simp [valsOf], ?_, by simp⟩
        · simp [findAux, hslot, hread, slotAfter]
        · simpa [slotAfter] using hslot
        · intro _; exact ⟨a, lt, rfl⟩
      · by_cases hvlt : key < v
        · refine ⟨false, [], (a, v) :: lt, some a, ?_, by simp, ?_, ChainSeg.nil _,
            ChainSeg.cons hread htail, by simp [valsOf], by simp, ?_⟩
          · simp [findAux, hslot, hread, hveq, hvlt, slotAfter]
          · simpa [slotAfter] using hslot
          · intro _ w hw
            have hw2 : w = v ∨ w ∈ valsOf lt := by
              simpa [valsOf] using hw
            rcases hw2 with hw2 | hw2
            · omega
            · have := List.rel_of_pairwise_cons hpair hw2
              omega
        · have hstep : findAux s key (fuel + 1) slot = findAux s key fuel (some a) := by
            simp [findAux, hslot, hread, hveq, hvlt]
          have hslot2 : readSlot s (some a) = some nxt := by
            simp [readSlot, hread]
          have hsorted2 : (valsOf lt).Pairwise (· < ·) := hpair.of_cons
          have hlen2 : lt.length < fuel := by
            simp only [List.length_cons] at hlen; omega
          obtain ⟨found, l1, l2, p2, hrun, hsplit, hslot3, hc1, hc2, hlow, hfoundT, hfoundF⟩ :=
            ih lt (some a) nxt hslot2 htail hsorted2 hlen2
          refine ⟨found, (a, v) :: l1, l2, p2, ?_, by simp [hsplit], ?_,
            ChainSeg.cons hread hc1, hc2, ?_, hfoundT, hfoundF⟩
          · rw [hstep]
            exact hrun
          · exact hslot3
          · intro w hw
            have hw2 : w = v ∨ w ∈ valsOf l1 := by
              simpa [valsOf] using hw
            have hvk : v < key := by
              rcases lt_trichotomy v key with hlt | heq | hgt
              · exact hlt
              · exact absurd heq hveq
              · exact absurd hgt (by omega)
            rcases hw2 with hw2 | hw2
            · omega
            · exact hlow w hw2

end FG

namespace FG

theorem readNode_some_lt {h : Heap} {a : Nat} {n : LNode}
    (hr : readNode h a = some n) : a < h.length := by
  by_contra hge
  have hnone : (h[a]?) = none := List.getElem?_eq_none (le_of_not_lt hge)
  simp [readNode, hnone] at hr

/-- A null-terminated chain has no more nodes than the heap has cells. -/
theorem ChainSeg.length_le {h : Heap} {p : Option Nat} {l : List (Nat × Int)}
    (hc : ChainSeg h p l none) : l.length ≤ h.length := by
  have hnd := hc.nodup_to_none
  have hsub : addrsOf l ⊆ List.range h.length :=
    fun a ha => List.mem_range.mpr (hc.addr_lt a ha)
  have hle := (List.subperm_of_subset hnd hsub).length_le
  simpa [addrsOf] using hle

/-- Writing a pointer into the slot reached after a chain prefix `l1`
redirects exactly that prefix: the write succeeds, the prefix now links to
the new pointer, and every node off the prefix is untouched. -/
theorem writeSlot_spec (s : LSet) (l1 : List (Nat × Int)) (p2 q : Option Nat)
    (hc : ChainSeg s.heap s.head l1 p2) (hnd : (addrsOf l1).Nodup) :
    ∃ s2, writeSlot s (slotAfter none l1) q = some s2 ∧
      s2.heap.length = s.heap.length ∧
      ChainSeg s2.heap s2.head l1 q ∧
      ∀ b, b ∉ addrsOf l1 → readNode s2.heap b = readNode s.heap b := by
  rcases List.eq_nil_or_concat l1 with rfl | ⟨l1i, z, rfl⟩
  · have hp := hc.nil_inv
    refine ⟨{ s with head := q }, rfl, rfl, ?_, fun b _ => rfl⟩
    exact ChainSeg.nil _
  · obtain ⟨a, w⟩ := z
    rw [List.concat_eq_append] at *
    obtain ⟨m, h1, h2⟩ := ChainSeg.split hc
    cases h2 with
    | cons hreadA htail2 =>
      have hnxt := htail2.nil_inv
      subst hnxt
      have halt : a < s.heap.length := readNode_some_lt hreadA
      have hnotmem : a ∉ addrsOf l1i := by
        have : (addrsOf l1i ++ [a]).Nodup := by
          simpa [addrsOf] using hnd
        have hdisj := (List.nodup_append.mp this).2.2
        intro hmem
        exact hdisj hmem (by simp)
      refine ⟨{ s with heap := s.heap.set a (some ⟨w, q⟩) }, ?_, by simp, ?_, ?_⟩
      · rw [slotAfter_concat]
        simp [writeSlot, hreadA]
      · refine ChainSeg.append (h1.set_ne hnotmem) ?_
        refine ChainSeg.cons ?_ (ChainSeg.nil _)
        simp [readNode, List.getElem?_set_eq_of_lt _ halt]
      · intro b hb
        have hba : a ≠ b := by
          intro he
          subst he
          exact hb (by simp [addrsOf])
        simp [readNode, List.getElem?_set_ne hba]

/-- The list-shape invariant: the head chain reaches null through a strictly
increasing sequence of values. -/
def SetInv (s : LSet) : Prop :=
  ∃ l, ChainSeg s.heap s.head l none ∧ (valsOf l).Pairwise (· < ·)

theorem setInv_empty : SetInv emptyLSet :=
  ⟨[], ChainSeg.nil _, by simp [valsOf]⟩

end FG

namespace FG

/-- `insert` preserves the list-shape invariant. -/
theorem insertSet_inv {s : LSet} {key : Int} {pr : Bool × LSet}
    (hinv : SetInv s) (hrun : insertSet s key = some pr) : SetInv pr.2 := by
  obtain ⟨l, hchain, hsorted⟩ := hinv
  have hlen : l.length < s.heap.length + 1 := Nat.lt_succ_of_le hchain.length_le
  obtain ⟨found, l1, l2, p2, hfindeq, hsplit, hslot2, hc1, hc2, hlow, hfT, hfF⟩ :=
    findAux_spec s key (s.heap.length + 1) l none s.head rfl hchain hsorted hlen
  have hfind : findSet s key = some (found, slotAfter none l1) := hfindeq
  cases found with
  | true =>
    simp only [insertSet, hfind] at hrun
    injection hrun with hpr
    subst hpr
    exact ⟨l, hchain, hsorted⟩
  | false =>
    subst hsplit
    have hnodup : (addrsOf l1 ++ addrsOf l2).Nodup := by
      simpa [addrsOf] using hchain.nodup_to_none
    have hnd1 : (addrsOf l1).Nodup := (List.nodup_append.mp hnodup).1
    have hdisj : List.Disjoint (addrsOf l1) (addrsOf l2) :=
      (List.nodup_append.mp hnodup).2.2
    obtain ⟨s2, hws, hlen2, hcnew, hagree⟩ :=
      writeSlot_spec ⟨s.head, s.heap ++ [some ⟨key, p2⟩]⟩ l1 p2 (some s.heap.length)
        hc1.grow hnd1
    simp only [insertSet, hfind, hslot2, allocNode] at hrun
    rw [hws] at hrun
    injection hrun with hpr
    subst hpr
    have hNnotl1 : s.heap.length ∉ addrsOf l1 := by
      intro hmem
      have := hc1.addr_lt _ hmem
      omega
    have hreadN : readNode s2.heap s.heap.length = some ⟨key, p2⟩ := by
      rw [hagree _ hNnotl1]
      simp [readNode]
    have hgrow2 : ChainSeg (s.heap ++ [some ⟨key, p2⟩]) p2 l2 none := hc2.grow
    have htail2 : ChainSeg s2.heap p2 l2 none := by
      refine hgrow2.mono ?_
      intro a ha
      exact hagree a (fun hmem => hdisj hmem ha)
    refine ⟨l1 ++ (s.heap.length, key) :: l2, ?_, ?_⟩
    · exact ChainSeg.append hcnew (ChainSeg.cons hreadN htail2)
    · have hvals : valsOf (l1 ++ (s.heap.length, key) :: l2)
          = valsOf l1 ++ key :: valsOf l2 := by
        simp [valsOf]
      rw [hvals]
      have hold : (valsOf l1 ++ valsOf l2).Pairwise (· < ·) := by
        have : valsOf (l1 ++ l2) = valsOf l1 ++ valsOf l2 := by simp [valsOf]
        rw [this] at hsorted
        exact hsorted
      obtain ⟨hp1, hp2s, hcross⟩ := List.pairwise_append.mp hold
      rw [List.pairwise_append]
      refine ⟨hp1, ?_, ?_⟩
      · rw [List.pairwise_cons]
        exact ⟨fun y hy => hfF rfl y hy, hp2s⟩
      · intro x hx y hy
        rcases List.mem_cons.mp hy with hy | hy
        · subst hy
          exact hlow x hx
        · exact lt_trans (hlow x hx) (hfF rfl y hy)

end FG

namespace FG

/-- `remove`, when its execution is defined, preserves the list-shape
invariant (the surviving chain is the old one with the target node and its
successor both gone, so it is still strictly sorted). -/
theorem removeSet_inv {s : LSet} {key : Int} {pr : Bool × LSet}
    (hinv : SetInv s) (hrun : removeSet s key = some pr) : SetInv pr.2 := by
  obtain ⟨l, hchain, hsorted⟩ := hinv
  have hlen : l.length < s.heap.length + 1 := Nat.lt_succ_of_le hchain.length_le
  obtain ⟨found, l1, l2, p2, hfindeq, hsplit, hslot2, hc1, hc2, hlow, hfT, hfF⟩ :=
    findAux_spec s key (s.heap.length + 1) l none s.head rfl hchain hsorted hlen
  have hfind : findSet s key = some (found, slotAfter none l1) := hfindeq
  cases found with
  | false =>
    simp only [removeSet, hfind] at hrun
    injection hrun with hpr
    subst hpr
    exact ⟨l, hchain, hsorted⟩
  | true =>
    obtain ⟨t, l2t, rfl⟩ := hfT rfl
    subst hsplit
    have hnd := hchain.nodup_to_none
    rw [show addrsOf (l1 ++ (t, key) :: l2t) = addrsOf l1 ++ t :: addrsOf l2t by
      simp [addrsOf]] at hnd
    obtain ⟨hnd1, hnd2, hdisj⟩ := List.nodup_append.mp hnd
    have htnotl1 : t ∉ addrsOf l1 := fun hm => hdisj hm (by simp)
    have htnotl2t : t ∉ addrsOf l2t := (List.nodup_cons.mp hnd2).1
    have hnd2t : (addrsOf l2t).Nodup := (List.nodup_cons.mp hnd2).2
    cases hc2 with
    | cons hreadT htailT =>
      rename_i nxtT
      cases l2t with
      | nil =>
        have hnone := htailT.nil_inv
        subst hnone
        simp only [removeSet, hfind, hslot2, hreadT] at hrun
        cases hrun
      | cons rp l2tt =>
        obtain ⟨r, vr⟩ := rp
        cases htailT with
        | cons hreadR htailR =>
          rename_i nxtR
          have htr : t ≠ r := fun he => htnotl2t (by simp [addrsOf, he])
          have hrnotl1 : r ∉ addrsOf l1 := fun hm => hdisj hm (by simp [addrsOf])
          have hrnotl2tt : r ∉ addrsOf l2tt := by
            have := hnd2t
            rw [show addrsOf ((r, vr) :: l2tt) = r :: addrsOf l2tt by simp [addrsOf]] at this
            exact (List.nodup_cons.mp this).1
          have htnotl2tt : t ∉ addrsOf l2tt := by
            intro hm
            exact htnotl2t (by simp [addrsOf]; exact Or.inr (by simpa [addrsOf] using hm))
          have hread1 : readNode (writeNode s t ⟨key, none⟩).heap r = some ⟨vr, nxtR⟩ := by
            have : readNode (s.heap.set t (some ⟨key, none⟩)) r = readNode s.heap r := by
              simp [readNode, List.getElem?_set_ne htr]
            rw [writeNode]
            exact this.trans hreadR
          have hc1w : ChainSeg (writeNode s t ⟨key, none⟩).heap
              (writeNode s t ⟨key, none⟩).head l1 (some t) := hc1.set_ne htnotl1
          obtain ⟨s2, hws, hlen2, hcnew, hagree⟩ :=
            writeSlot_spec (writeNode s t ⟨key, none⟩) l1 (some t) nxtR hc1w hnd1
          simp only [removeSet, hfind, hslot2, hreadT, hread1, hws] at hrun
          injection hrun with hpr
          subst hpr
          refine ⟨l1 ++ l2tt, ?_, ?_⟩
          · have hpart1 : ChainSeg (freeNode s2 r).heap (freeNode s2 r).head l1 nxtR :=
              hcnew.set_ne hrnotl1
            have htail1 : ChainSeg (writeNode s t ⟨key, none⟩).heap nxtR l2tt none :=
              htailR.set_ne htnotl2tt
            have htail2 : ChainSeg s2.heap nxtR l2tt none := by
              refine htail1.mono ?_
              intro a ha
              exact hagree a (fun hm => hdisj hm (by
                simp only [addrsOf, List.map_cons, List.mem_cons]
                exact Or.inr (Or.inr (by simpa [addrsOf] using ha))))
            have htail3 : ChainSeg (freeNode s2 r).heap nxtR l2tt none :=
              htail2.set_ne hrnotl2tt
            exact ChainSeg.append hpart1 htail3
          · have hsub : List.Sublist (valsOf (l1 ++ l2tt))
                (valsOf (l1 ++ (t, key) :: (r, vr) :: l2tt)) := by
              simp only [valsOf, List.map_append, List.map_cons]
              refine List.Sublist.append_left ?_ _
              exact (List.Sublist.refl _).cons _ |>.cons _
            exact hsorted.sublist hsub
end FG

namespace FG

/-- Iterating from a pointer carrying a null-terminated chain yields exactly
the chain's values. -/
theorem iterAux_spec {h : Heap} {l : List (Nat × Int)} :
    ∀ {p : Option Nat} {fuel : Nat}, ChainSeg h p l none → l.length < fuel →
      iterAux h fuel p = some (valsOf l) := by
  induction l with
  | nil =>
    intro p fuel hc _
    have hp := hc.nil_inv
    subst hp
    cases fuel <;> simp [iterAux, valsOf]
  | cons x lt ih =>
    intro p fuel hc hlen
    obtain ⟨a, v⟩ := x
    cases hc with
    | cons hread htail =>
      rename_i nxt
      cases fuel with
      | zero => omega
      | succ f =>
        have hlt : lt.length < f := by simp only [List.length_cons] at hlen; omega
        have hrec : iterAux h f nxt = some (valsOf lt) := ih htail hlt
        simp [iterAux, hread, hrec, valsOf]

/-- A state satisfying the shape invariant iterates to a strictly sorted
value list. -/
theorem iterSet_of_inv {s : LSet} (hinv : SetInv s) :
    ∃ l, iterSet s = some l ∧ l.Pairwise (· < ·) := by
  obtain ⟨l, hchain, hsorted⟩ := hinv
  refine ⟨valsOf l, ?_, hsorted⟩
  exact iterAux_spec hchain (Nat.lt_succ_of_le hchain.length_le)

/-- Any defined run of inserts and removes preserves the shape invariant. -/
theorem runOps_inv : ∀ (ops : List SetOp) (s s2 : LSet),
    SetInv s → runOps ops s = some s2 → SetInv s2 := by
  intro ops
  induction ops with
  | nil =>
    intro s s2 hinv hrun
    simp only [runOps] at hrun
    injection hrun with he
    subst he
    exact hinv
  | cons op rest ih =>
    intro s s2 hinv hrun
    simp only [runOps] at hrun
    cases hop : runOp s op with
    | none => rw [hop] at hrun; cases hrun
    | some s1 =>
      rw [hop] at hrun
      refine ih s1 s2 ?_ hrun
      cases op with
      | ins k =>
        simp only [runOp] at hop
        cases hi : insertSet s k with
        | none => rw [hi] at hop; cases hop
        | some pr =>
          rw [hi] at hop
          injection hop with he
          subst he
          exact insertSet_inv hinv hi
      | rem k =>
        simp only [runOp] at hop
        cases hi : removeSet s k with
        | none => rw [hi] at hop; cases hop
        | some pr =>
          rw [hi] at hop
          injection hop with he
          subst he
          exact removeSet_inv hinv hi

end FG

namespace FG

/-- C1: the claim fails on the code.  On the set {1,2,3}, `remove(1)` returns
true, but instead of writing the target's successor pointer into the
predecessor's slot it writes the successor's own `next` pointer there, so
the remaining elements are {3} and not {2,3}; the node it reclaims is the
successor (value 2, address 1), while the target node (value 1, address 0)
is left allocated and unreachable.  So remove neither unlinks exactly the
target, nor reclaims only the target's memory, nor leaves S minus the key. -/
theorem C1_remove_unlinks_and_frees_wrong_node :
    runOps [SetOp.ins 1, SetOp.ins 2, SetOp.ins 3] emptyLSet = some demo123 ∧
    (removeSet demo123 1).map (fun r => (r.1, iterSet r.2)) = some (true, some [3]) ∧
    (removeSet demo123 1).map (fun r => r.2.heap[1]?) = some (some none) ∧
    (removeSet demo123 1).map (fun r => r.2.heap[0]?) =
      some (some (some ⟨1, none⟩)) := by
  decide

/-- C5: after any sequence of insert and remove operations whose execution
is defined, starting from a fresh set, `iter()` terminates with a finite,
strictly increasing value sequence (hence duplicate-free): every operation
preserves the sorted-chain invariant from the head to the null terminator. -/
theorem C5_iter_strictly_increasing (ops : List SetOp) (s : LSet)
    (hrun : runOps ops emptyLSet = some s) :
    ∃ l, iterSet s = some l ∧ l.Chain' (· < ·) := by
  have hinv := runOps_inv ops emptyLSet s setInv_empty hrun
  obtain ⟨l, hiter, hsorted⟩ := iterSet_of_inv hinv
  exact ⟨l, hiter, List.chain'_iff_pairwise.mpr hsorted⟩

/-- Witness for C5: the concrete run `insert 1; insert 2; insert 3; remove 1`
is defined, and the theorem applies to its final state. -/
theorem C5_iter_strictly_increasing_witness :
    ∃ l, iterSet ⟨some 2, [some ⟨1, none⟩, none, some ⟨3, none⟩]⟩ = some l ∧
      l.Chain' (· < ·) :=
  C5_iter_strictly_increasing [SetOp.ins 1, SetOp.ins 2, SetOp.ins 3, SetOp.rem 1]
    ⟨some 2, [some ⟨1, none⟩, none, some ⟨3, none⟩]⟩ (by decide)

/-- C9: the claim fails on the code.  `Drop` only runs `for _ in self.iter() {}`,
which never calls `Box::from_raw`: dropping the set {1,2,3} walks the chain and
returns the state completely unchanged, with all three nodes still allocated —
nothing is reclaimed, every node is leaked. -/
theorem C9_drop_reclaims_no_node :
    dropSet demo123 = some demo123 ∧
    readNode demo123.heap 0 = some ⟨1, some 1⟩ ∧
    readNode demo123.heap 1 = some ⟨2, some 2⟩ ∧
    readNode demo123.heap 2 = some ⟨3, none⟩ := by
  decide

/-- C10: the claim fails on the code.  When the removed key is the greatest
element, the target's successor pointer `to_remove` is null, and
`(*to_remove).next.lock()` dereferences it with no guard: `remove(1)` on the
singleton {1} and `remove(3)` on {1,2,3} both reach the null dereference
(modelled as `none`). -/
theorem C10_remove_greatest_dereferences_null :
    insertSet emptyLSet 1 = some (true, demo1) ∧
    removeSet demo1 1 = none ∧
    removeSet demo123 3 = none := by
  decide

end FG

/-
`hello_server/cache.rs` — `Cache::get_or_insert_with`, embedded as an
interleaving machine.  Each caller thread executes the source line by line;
every lock acquisition, lock release and shared-memory access is one atomic
step, and a scheduler (a list of thread ids) chooses who steps.  A thread
whose next step needs an unavailable lock cannot step (it is blocked).
The factory is the one of the spec scenarios, `|k| k * k`; each execution
of a factory is recorded in `factoryRuns` (the shared counter of the
exactly-once test).

Program counters follow `get_or_insert_with`:
  0  acquire the table write lock (`self.inner.write()`)
  1  `match write_lock.entry(key)` — decide occupied/vacant
  vacant arm:
  2  `entry.insert(Arc::new(RwLock::new(None)))`
  3  `drop(write_lock)` — release the table lock
  4  `let returned_value = f(key)` — run the factory
  5  `value.write()` — acquire the slot write lock
  6  `*write_guard = Some(returned_value.clone())`
  7  return — drop the slot write guard, result is the computed value
  occupied arm (the table write lock is NOT dropped in this arm):
  10 `entry.get().clone()` — take a handle to the slot
  11 `stored_value.read()` — acquire the slot read lock
  12 `read_guard.clone().unwrap()` — panics when the slot is still `None`
  13 return — drop the read guard and the table write lock
  8  done.
-/

namespace HC

/-- Outcome of one `get_or_insert_with` call. -/
inductive CResult where
  | pending
  | ok (v : Nat)
  | panicked
  deriving DecidableEq, Repr

/-- One caller thread: its key, program counter, the value it computed or
read (`acc`), and its final outcome. -/
structure CThread where
  key : Nat
  pc : Nat
  acc : Nat
  result : CResult
  deriving DecidableEq, Repr

/-- A per-key slot `Arc<RwLock<Option<V>>>`: stored value plus the state of
its reader/writer lock. -/
structure CSlot where
  val : Option Nat
  readers : List Nat
  writer : Option Nat
  deriving DecidableEq, Repr

/-- Whole-machine configuration: who holds the table write lock, the slot
table, the caller threads, and one entry per factory execution. -/
structure CacheCfg where
  tableLock : Option Nat
  slots : List (Nat × CSlot)
  threads : List CThread
  factoryRuns : List Nat
  deriving DecidableEq, Repr

def lookupSlot (slots : List (Nat × CSlot)) (k : Nat) : Option CSlot :=
  (slots.find? (fun e => e.1 == k)).map (·.2)

def setSlot (slots : List (Nat × CSlot)) (k : Nat) (sl : CSlot) :
    List (Nat × CSlot) :=
  slots.map (fun e => if e.1 == k then (k, sl) else e)

/-- One atomic step of thread `tid`; `none` when the thread does not exist,
is done, or is blocked on a lock. -/
def step (cfg : CacheCfg) (tid : Nat) : Option CacheCfg :=
  match cfg.threads[tid]? with
  | none => none
  | some t =>
    match t.pc with
    | 0 =>
      match cfg.tableLock with
      | some _ => none
      | none => some { cfg with tableLock := some tid,
                                threads := cfg.threads.set tid { t with pc := 1 } }
    | 1 =>
      match lookupSlot cfg.slots t.key with
      | some _ => some { cfg with threads := cfg.threads.set tid { t with pc := 10 } }
      | none => some { cfg with threads := cfg.threads.set tid { t with pc := 2 } }
    | 2 =>
      some { cfg with slots := (t.key, ⟨none, [], none⟩) :: cfg.slots,
                      threads := cfg.threads.set tid { t with pc := 3 } }
    | 3 =>
      some { cfg with tableLock := none,
                      threads := cfg.threads.set tid { t with pc := 4 } }
    | 4 =>
      some { cfg with factoryRuns := t.key :: cfg.factoryRuns,
                      threads := cfg.threads.set tid
                        { t with acc := t.key * t.key, pc := 5 } }
    | 5 =>
      match lookupSlot cfg.slots t.key with
      | none => none
      | some sl =>
        match sl.writer, sl.readers with
        | none, [] =>
          some { cfg with slots := setSlot cfg.slots t.key { sl with writer := some tid },
                          threads := cfg.threads.set tid { t with pc := 6 } }
        | _, _ => none
    | 6 =>
      match lookupSlot cfg.slots t.key with
      | none => none
      | some sl =>
        some { cfg with slots := setSlot cfg.slots t.key { sl with val := some t.acc },
                        threads := cfg.threads.set tid { t with pc := 7 } }
    | 7 =>
      match lookupSlot cfg.slots t.key with
      | none => none
      | some sl =>
        some { cfg with slots := setSlot cfg.slots t.key { sl with writer := none },
                        threads := cfg.threads.set tid
                          { t with pc := 8, result := CResult.ok t.acc } }
    | 10 => some { cfg with threads := cfg.threads.set tid { t with pc := 11 } }
    | 11 =>
      match lookupSlot cfg.slots t.key with
      | none => none
      | some sl =>
        match sl.writer with
        | some _ => none
        | none =>
          some { cfg with slots := setSlot cfg.slots t.key
                            { sl with readers := tid :: sl.readers },
                          threads := cfg.threads.set tid { t with pc := 12 } }
    | 12 =>
      match lookupSlot cfg.slots t.key with
      | none => none
      | some sl =>
        match sl.val with
        | some v =>
          some { cfg with threads := cfg.threads.set tid { t with pc := 13, acc := v } }
        | none =>
          some { cfg with slots := setSlot cfg.slots t.key
                            { sl with readers := sl.readers.filter (· != tid) },
                          tableLock := none,
                          threads := cfg.threads.set tid
                            { t with pc := 8, result := CResult.panicked } }
    | 13 =>
      match lookupSlot cfg.slots t.key with
      | none => none
      | some sl =>
        some { cfg with slots := setSlot cfg.slots t.key
                          { sl with readers := sl.readers.filter (· != tid) },
                        tableLock := none,
                        threads := cfg.threads.set tid
                          { t with pc := 8, result := CResult.ok t.acc } }
    | _ => none

/-- Whether thread `tid` can take a step (false = done, blocked on a lock,
or nonexistent). -/
def canStep (cfg : CacheCfg) (tid : Nat) : Bool := (step cfg tid).isSome

/-- Run a schedule; a scheduled thread that cannot step leaves the
configuration unchanged. -/
def runSched (sched : List Nat) (cfg : CacheCfg) : CacheCfg :=
  sched.foldl (fun c tid => (step c tid).getD c) cfg

/-- Initial configuration: one caller per listed key, empty table, no lock
held, no factory run yet. -/
def initCfg (keys : List Nat) : CacheCfg :=
  ⟨none, [], keys.map (fun k => ⟨k, 0, 0, CResult.pending⟩), []⟩

end HC

namespace HC

/-- C2: the claim fails on the code.  Two concurrent callers for key 1:
the first inserts the empty slot and releases the table lock (pc 0–3); the
second then observes the occupied entry, takes the slot read lock — nothing
blocks it, since the first caller only write-locks the slot after running
the factory — and `read_guard.clone().unwrap()` panics on the still-empty
slot.  The factory does run exactly once, but the second caller fails with a
panic instead of blocking until the value is ready. -/
theorem C2_blocked_caller_panics_on_empty_slot :
    (runSched [0, 0, 0, 0, 1, 1, 1, 1, 1, 0, 0, 0, 0] (initCfg [1, 1])).threads.map
        (·.result) = [CResult.ok 1, CResult.panicked] ∧
    (runSched [0, 0, 0, 0, 1, 1, 1, 1, 1, 0, 0, 0, 0] (initCfg [1, 1])).factoryRuns
        = [1] := by
  decide

/-- C4: counterexample.  Caller 0 (key 1, vacant path) has run its factory
and holds the slot write lock; caller 1 (key 1, occupied path) holds the
*table* lock and is blocked acquiring the slot read lock; caller 2 (key 2)
is blocked on the table lock.  So the table lock is held while waiting on a
slot lock, and a call for key 2 waits on calls for key 1 ≠ 2. -/
theorem C4_table_lock_held_while_waiting_on_slot_lock :
    (runSched [0, 0, 0, 0, 0, 0, 1, 1, 1] (initCfg [1, 1, 2])).tableLock = some 1 ∧
    ((runSched [0, 0, 0, 0, 0, 0, 1, 1, 1] (initCfg [1, 1, 2])).threads.map
        (fun t => (t.key, t.pc)))
      = [(1, 6), (1, 11), (2, 0)] ∧
    lookupSlot (runSched [0, 0, 0, 0, 0, 0, 1, 1, 1] (initCfg [1, 1, 2])).slots 1
      = some ⟨none, [], some 0⟩ ∧
    canStep (runSched [0, 0, 0, 0, 0, 0, 1, 1, 1] (initCfg [1, 1, 2])) 1 = false ∧
    canStep (runSched [0, 0, 0, 0, 0, 0, 1, 1, 1] (initCfg [1, 1, 2])) 2 = false := by
  decide

/-- Program counters at which a thread holds the table write lock: from the
acquisition (pc 0 → 1) until `drop(write_lock)` (pc 3 → 4) on the vacant
path, and until return or panic (pc 13 / the `unwrap` panic at pc 12) on the
occupied path. -/
def tableHolderPc (pc : Nat) : Bool :=
  pc == 1 || pc == 2 || pc == 3 || pc == 10 || pc == 11 || pc == 12 || pc == 13

/-- Lock-ownership invariant: a thread is at a table-holding program counter
exactly when the table lock records it as the holder. -/
def TableInv (cfg : CacheCfg) : Prop :=
  ∀ i t, cfg.threads[i]? = some t → (tableHolderPc t.pc = true ↔ cfg.tableLock = some i)

theorem tableInv_init (keys : List Nat) : TableInv (initCfg keys) := by
  intro i t hget
  simp only [initCfg, List.getElem?_map] at hget
  cases hk : keys[i]? with
  | none => rw [hk] at hget; cases hget
  | some k =>
    rw [hk] at hget
    injection hget with he
    subst he
    simp [tableHolderPc, initCfg]

end HC

namespace HC

/-- Updating the stepping thread and possibly the table lock preserves the
ownership invariant, provided the stepping thread's new state is consistent
and no other thread's ownership changed. -/
theorem tableInv_update {cfg : CacheCfg} (hinv : TableInv cfg) {tid : Nat} (t2 : CThread)
    (htid : tid < cfg.threads.length) (X : Option Nat)
    (slots2 : List (Nat × CSlot)) (fr : List Nat)
    (htidCase : tableHolderPc t2.pc = true ↔ X = some tid)
    (hothers : ∀ i, i ≠ tid → (cfg.tableLock = some i ↔ X = some i)) :
    TableInv { tableLock := X, slots := slots2,
               threads := cfg.threads.set tid t2, factoryRuns := fr } := by
  intro i t' hget
  have hget2 : (cfg.threads.set tid t2)[i]? = some t' := hget
  show tableHolderPc t'.pc = true ↔ X = some i
  by_cases hi : i = tid
  · subst hi
    rw [List.getElem?_set_eq_of_lt t2 htid] at hget2
    injection hget2 with he
    subst he
    exact htidCase
  · have hne : tid ≠ i := fun he => hi he.symm
    rw [List.getElem?_set_ne hne] at hget2
    exact (hinv i t' hget2).trans (hothers i hi)

theorem step_tableInv {cfg cfg2 : CacheCfg} {tid : Nat}
    (hinv : TableInv cfg) (hstep : step cfg tid = some cfg2) : TableInv cfg2 := by
  unfold step at hstep
  cases ht : cfg.threads[tid]? with
  | none => rw [ht] at hstep; cases hstep
  | some t =>
    rw [ht] at hstep
    have htid : tid < cfg.threads.length := by
      by_contra hge
      rw [List.getElem?_eq_none (le_of_not_lt hge)] at ht
      cases ht
    obtain ⟨key, pc, acc, res⟩ := t
    have hcur := hinv tid ⟨key, pc, acc, res⟩ ht
    simp only at hcur
    rcases pc with _|_|_|_|_|_|_|_|_|_|_|_|_|_|pc <;> simp only at hstep
    · -- pc 0 : acquire the table lock
      cases hT : cfg.tableLock with
      | some j => rw [hT] at hstep; cases hstep
      | none =>
        rw [hT] at hstep
        injection hstep with he
        subst he
        refine tableInv_update hinv _ htid _ _ _ (by simp [tableHolderPc]) ?_
        intro i hi
        rw [hT]
        exact ⟨fun h => Option.noConfusion h,
               fun h => absurd (Option.some.inj h).symm hi⟩
    · -- pc 1 : entry check
      have hT : cfg.tableLock = some tid := hcur.mp (by decide)
      cases hL : lookupSlot cfg.slots key with
      | some sl =>
        rw [hL] at hstep
        injection hstep with he
        subst he
        exact tableInv_update hinv _ htid _ _ _ (by rw [hT]; simp [tableHolderPc])
          (fun i hi => Iff.rfl)
      | none =>
        rw [hL] at hstep
        injection hstep with he
        subst he
        exact tableInv_update hinv _ htid _ _ _ (by rw [hT]; simp [tableHolderPc])
          (fun i hi => Iff.rfl)
    · -- pc 2 : insert the empty slot
      have hT : cfg.tableLock = some tid := hcur.mp (by decide)
      injection hstep with he
      subst he
      exact tableInv_update hinv _ htid _ _ _ (by rw [hT]; simp [tableHolderPc])
        (fun i hi => Iff.rfl)
    · -- pc 3 : drop the table lock
      have hT : cfg.tableLock = some tid := hcur.mp (by decide)
      injection hstep with he
      subst he
      refine tableInv_update hinv _ htid _ _ _ (by simp [tableHolderPc]) ?_
      intro i hi
      rw [hT]
      exact ⟨fun h => absurd (Option.some.inj h).symm hi,
             fun h => Option.noConfusion h⟩
    · -- pc 4 : run the factory (table lock not held)
      injection hstep with he
      subst he
      exact tableInv_update hinv _ htid _ _ _
        ⟨fun h => Bool.noConfusion h, fun h => Bool.noConfusion (hcur.mpr h)⟩
        (fun i hi => Iff.rfl)
    · -- pc 5 : acquire the slot write lock
      cases hL : lookupSlot cfg.slots key with
      | none => rw [hL] at hstep; cases hstep
      | some sl =>
        rw [hL] at hstep
        simp only at hstep
        cases hW : sl.writer with
        | some j => rw [hW] at hstep; cases hstep
        | none =>
          rw [hW] at hstep
          cases hR : sl.readers with
          | cons x xs => rw [hR] at hstep; cases hstep
          | nil =>
            rw [hR] at hstep
            injection hstep with he
            subst he
            exact tableInv_update hinv _ htid _ _ _
              ⟨fun h => Bool.noConfusion h, fun h => Bool.noConfusion (hcur.mpr h)⟩
              (fun i hi => Iff.rfl)
    · -- pc 6 : store the factory result
      cases hL : lookupSlot cfg.slots key with
      | none => rw [hL] at hstep; cases hstep
      | some sl =>
        rw [hL] at hstep
        injection hstep with he
        subst he
        exact tableInv_update hinv _ htid _ _ _
          ⟨fun h => Bool.noConfusion h, fun h => Bool.noConfusion (hcur.mpr h)⟩
          (fun i hi => Iff.rfl)
    · -- pc 7 : release the slot write lock and return
      cases hL : lookupSlot cfg.slots key with
      | none => rw [hL] at hstep; cases hstep
      | some sl =>
        rw [hL] at hstep
        injection hstep with he
        subst he
        exact tableInv_update hinv _ htid _ _ _
          ⟨fun h => Bool.noConfusion h, fun h => Bool.noConfusion (hcur.mpr h)⟩
          (fun i hi => Iff.rfl)
    · -- pc 8 : done
      cases hstep
    · -- pc 9 : unused
      cases hstep
    · -- pc 10 : clone the slot handle
      have hT : cfg.tableLock = some tid := hcur.mp (by decide)
      injection hstep with he
      subst he
      exact tableInv_update hinv _ htid _ _ _ (by rw [hT]; simp [tableHolderPc])
        (fun i hi => Iff.rfl)
    · -- pc 11 : acquire the slot read lock
      have hT : cfg.tableLock = some tid := hcur.mp (by decide)
      cases hL : lookupSlot cfg.slots key with
      | none => rw [hL] at hstep; cases hstep
      | some sl =>
        rw [hL] at hstep
        simp only at hstep
        cases hW : sl.writer with
        | some j => rw [hW] at hstep; cases hstep
        | none =>
          rw [hW] at hstep
          injection hstep with he
          subst he
          exact tableInv_update hinv _ htid _ _ _ (by rw [hT]; simp [tableHolderPc])
            (fun i hi => Iff.rfl)
    · -- pc 12 : read_guard.clone().unwrap()
      have hT : cfg.tableLock = some tid := hcur.mp (by decide)
      cases hL : lookupSlot cfg.slots key with
      | none => rw [hL] at hstep; cases hstep
      | some sl =>
        rw [hL] at hstep
        simp only at hstep
        cases hV : sl.val with
        | some v =>
          rw [hV] at hstep
          injection hstep with he
          subst he
          exact tableInv_update hinv _ htid _ _ _ (by rw [hT]; simp [tableHolderPc])
            (fun i hi => Iff.rfl)
        | none =>
          rw [hV] at hstep
          injection hstep with he
          subst he
          refine tableInv_update hinv _ htid _ _ _ (by simp [tableHolderPc]) ?_
          intro i hi
          rw [hT]
          exact ⟨fun h => absurd (Option.some.inj h).symm hi,
                 fun h => Option.noConfusion h⟩
    · -- pc 13 : drop the read guard and the table lock, return
      have hT : cfg.tableLock = some tid := hcur.mp (by decide)
      cases hL : lookupSlot cfg.slots key with
      | none => rw [hL] at hstep; cases hstep
      | some sl =>
        rw [hL] at hstep
        injection hstep with he
        subst he
        refine tableInv_update hinv _ htid _ _ _ (by simp [tableHolderPc]) ?_
        intro i hi
        rw [hT]
        exact ⟨fun h => absurd (Option.some.inj h).symm hi,
               fun h => Option.noConfusion h⟩
    · -- pc ≥ 14 : unused
      cases hstep

/-- Running any schedule preserves the ownership invariant. -/
theorem runSched_tableInv (sched : List Nat) (cfg : CacheCfg)
    (hinv : TableInv cfg) : TableInv (runSched sched cfg) := by
  induction sched generalizing cfg with
  | nil => exact hinv
  | cons tid rest ih =>
    show TableInv (runSched rest ((step cfg tid).getD cfg))
    cases hs : step cfg tid with
    | none => exact ih cfg hinv
    | some cfg2 =>
      exact ih cfg2 (step_tableInv hinv hs)

end HC

namespace HC

/-- C4 amended: the table lock is released before the factory runs.  In
every configuration reachable by any schedule from any initial caller
population, a thread about to execute the factory (pc 4) does not hold the
table write lock — `drop(write_lock)` precedes `f(key)` in the vacant
branch.  (What fails in the original claim is the other half: the occupied
branch holds the table lock while acquiring the slot read lock, so a call
for one key can make calls for other keys wait; see the counterexample.) -/
theorem C4_table_lock_not_held_during_factory (keys sched : List Nat)
    (tid : Nat) (t : CThread)
    (hget : (runSched sched (initCfg keys)).threads[tid]? = some t)
    (hpc : t.pc = 4) :
    (runSched sched (initCfg keys)).tableLock ≠ some tid := by
  intro hT
  have hinv := runSched_tableInv sched (initCfg keys) (tableInv_init keys)
  have hhold := (hinv tid t hget).mpr hT
  rw [hpc] at hhold
  exact absurd hhold (by decide)

/-- Witness for C4: caller 0 of two (keys 1 and 2) right after its vacant
branch released the table lock, about to run the factory. -/
theorem C4_table_lock_not_held_during_factory_witness :
    (runSched [0, 0, 0, 0] (initCfg [1, 2])).tableLock ≠ some 0 :=
  C4_table_lock_not_held_during_factory [1, 2] [0, 0, 0, 0] 0
    ⟨1, 4, 0, CResult.pending⟩ (by decide) (by decide)

end HC

/-
`hello_server/cache.rs` again, this time sequentially (claim C6): with a
single caller no step of another thread can interleave, so
`get_or_insert_with` is a function of the table.  The factory returns
`Option` so that a closure that would panic can be modelled (`none`);
the Bool records whether the factory was invoked (only the vacant arm of
`match write_lock.entry(key)` calls `f`).
-/

namespace SC

/-- Sequential `Cache::get_or_insert_with`: occupied entry ⇒ `unwrap` the
stored slot value (a panic — `none` — if an earlier factory crashed and left
the slot empty); vacant entry ⇒ insert a slot, run `f`, store and return its
result. -/
def getOrInsertWith (table : List (Nat × Option Nat)) (key : Nat)
    (f : Nat → Option Nat) : Option (Nat × List (Nat × Option Nat) × Bool) :=
  match (table.find? (fun e => e.1 == key)).map (·.2) with
  | some slotVal =>
    match slotVal with
    | some v => some (v, table, false)
    | none => none
  | none =>
    match f key with
    | none => none
    | some v => some (v, (key, some v) :: table, true)

/-- The factory `|k| k * k` of the spec scenario. -/
def sqFactory (k : Nat) : Option Nat := some (k * k)

/-- A factory that would panic if invoked. -/
def panicFactory (_ : Nat) : Option Nat := none

/-- C6: on a fresh cache, `get_or_insert_with(1, |k| k*k)` invokes the
factory and returns 1; a second call with key 1 and a factory that would
panic if invoked still returns 1, does not panic, and does not invoke the
factory. -/
theorem C6_second_call_uses_cache_not_factory :
    getOrInsertWith [] 1 sqFactory = some (1, [(1, some 1)], true) ∧
    getOrInsertWith [(1, some 1)] 1 panicFactory = some (1, [(1, some 1)], false) := by
  decide

end SC

/-
`hello_server/thread_pool.rs` — `ThreadPool` and `ThreadPoolInner`.
The relevant state is the `job_count: Mutex<usize>` with its
`empty_condvar`, the optional `job_sender`, and the worker count.
-/

namespace TP

/-- Bitwise NOT on `usize` (64-bit): what `!` means on an integer in
`while !*cnt == 0`. -/
def usizeNot (n : Nat) : Nat := (2 ^ 64 - 1) - (n % 2 ^ 64)

/-- The loop guard of `ThreadPoolInner::wait_empty`, exactly as written:
`!*cnt == 0` is `(bitwise-NOT cnt) == 0`, true only when
`cnt == usize::MAX`. -/
def waitEmptyLoopGuard (cnt : Nat) : Bool := usizeNot cnt == 0

/-- `wait_empty` observed behaviour: if the guard fails the loop exits at
once and `join()` returns having observed `cnt`; if it holds, the thread
waits on `empty_condvar` (`none`). -/
def waitEmpty (cnt : Nat) : Option Nat :=
  if waitEmptyLoopGuard cnt then none else some cnt

/-- Synchronization actions a `ThreadPoolInner` method can perform. -/
inductive PoolAction where
  | lockCount
  | writeCount (n : Nat)
  | unlockCount
  | notifyAll
  deriving DecidableEq, Repr

/-- `ThreadPoolInner::finish_job`: lock the counter, decrement it, print,
unlock (guard dropped).  The action trace records every synchronization
action the body performs — there is no `notify` call. -/
def finishJob (cnt : Nat) : Nat × List PoolAction :=
  (cnt - 1,
   [PoolAction.lockCount, PoolAction.writeCount (cnt - 1), PoolAction.unlockCount])

/-- C3: the claim fails on the code, twice over.  With five active jobs the
loop guard `!*cnt == 0` (bitwise NOT!) is already false, so `wait_empty`
returns immediately with the counter observed at 5 ≠ 0 — `join()` does not
wait; and `finish_job` performs no condition-variable signal at all, so no
worker ever signals the completion condition. -/
theorem C3_join_exits_with_nonzero_count_and_no_signal :
    waitEmpty 5 = some 5 ∧
    (5 ≠ 0) ∧
    waitEmptyLoopGuard 5 = false ∧
    PoolAction.notifyAll ∉ (finishJob 5).2 := by
  decide

/-- The pool as constructed by `ThreadPool::new`. -/
structure PoolModel where
  workers : Nat
  jobCount : Nat
  senderConnected : Bool
  deriving DecidableEq, Repr

/-- `ThreadPool::new`: `assert!(size > 0)` panics (`none`) on zero,
otherwise spawns `size` workers with job count 0 and a live sender. -/
def threadPoolNew (size : Nat) : Option PoolModel :=
  if size > 0 then some ⟨size, 0, true⟩ else none

/-- C7: `new(size)` panics exactly when `size == 0`: the zero-size
precondition violation is rejected at construction and never yields a
pool. -/
theorem C7_new_rejects_zero_size :
    ∀ size : Nat, threadPoolNew size = none ↔ size = 0 := by
  intro size
  cases size with
  | zero => simp [threadPoolNew]
  | succ n => simp [threadPoolNew]

/-- What one `ThreadPool::execute` call does. -/
inductive ExecOutcome where
  | enqueued (job : Nat)
  | panicked
  | ignored
  deriving DecidableEq, Repr

/-- `ThreadPool::execute`:
`if let Some(sender) = &self.job_sender { sender.send(job).expect(..) }` —
a live sender enqueues, a disconnected channel makes `send` return `Err`
and `expect` panic, and a taken sender (`None`, the shut-down state) makes
the `if let` skip the body, silently discarding the job. -/
def executeModel (sender : Option Bool) (job : Nat) : ExecOutcome :=
  match sender with
  | none => ExecOutcome.ignored
  | some connected =>
    if connected then ExecOutcome.enqueued job else ExecOutcome.panicked

/-- Whether an `execute` outcome is observable as an error at the call
site. -/
def observableError : ExecOutcome → Bool
  | ExecOutcome.panicked => true
  | _ => false

/-- C8 counterexample: with the submission side closed (`job_sender` taken,
the pool's shut-down state), `execute` silently ignores the job — the
enqueue neither happens nor fails with an observable error, contradicting
the claim. -/
theorem C8_closed_sender_drops_job_silently :
    executeModel none 7 = ExecOutcome.ignored ∧
    observableError (executeModel none 7) = false := by
  decide

/-- C8 amended: `execute` never blocks (it is a total function of the
sender state): with a live sender the job is enqueued; when the channel is
disconnected the `expect` panics — an observable error; but when the sender
has been taken (shutdown begun) the job is silently dropped, not reported. -/
theorem C8_execute_outcomes :
    executeModel (some true) 7 = ExecOutcome.enqueued 7 ∧
    executeModel (some false) 7 = ExecOutcome.panicked ∧
    observableError (executeModel (some false) 7) = true ∧
    executeModel none 7 = ExecOutcome.ignored := by
  decide

end TP
